import Mathlib

/-!
# Verification of the jsPsych cloze plugin core

Shallow embedding of `packages/plugin-cloze/src/index.ts`: the template
parser (`getSolutions`), the submit handler (`check`), the rendering loop of
`trial`, and the simulation helpers (`create_simulation_data`,
`simulate_visual`).  JavaScript strings are modelled as `List Char`; the
JavaScript string operations used by the plugin (`split` on a one-character
separator, `trim`, `toLowerCase`) are modelled as executable functions on
`List Char`.
-/

namespace Cloze

/-- A JavaScript string, modelled as its list of characters. -/
abbrev JSStr := List Char

/-- Model of `String.prototype.trim`: drop whitespace from both ends. -/
def jsTrim (s : JSStr) : JSStr :=
  ((s.dropWhile Char.isWhitespace).reverse.dropWhile Char.isWhitespace).reverse

/-- Model of `String.prototype.toLowerCase` (ASCII case folding). -/
def jsToLower (s : JSStr) : JSStr :=
  s.map Char.toLower

/-- Helper for `splitChar`: prepend a character to the first chunk. -/
def consHead (c : Char) : List JSStr → List JSStr
  | [] => [[c]]
  | h :: t => (c :: h) :: t

/-- Model of `String.prototype.split` with a one-character separator:
`splitChar sep s` returns the chunks of `s` between occurrences of `sep`.
Like the JavaScript original, the result is never empty and splitting the
empty string yields `[""]`. -/
def splitChar (sep : Char) : JSStr → List JSStr
  | [] => [[]]
  | c :: cs => if c = sep then [] :: splitChar sep cs else consHead c (splitChar sep cs)

/-- The elements at odd positions (0-indexed) of a list.  In the plugin the
elements of `text.split("%")` at odd positions are the blanks. -/
def oddElems {α : Type} : List α → List α
  | [] => []
  | [_] => []
  | _ :: b :: rest => b :: oddElems rest

/-- The accepted-answer list derived from the marker-enclosed content `e` of
one blank, following `getSolutions`: trim (after lower-casing when case
sensitivity is off) and split on the alternatives separator. -/
def solutionOf (e : JSStr) (case_sensitive : Bool) : List JSStr :=
  if case_sensitive then splitChar '/' (jsTrim e)
  else splitChar '/' (jsTrim (jsToLower e))

/-- Embedding of `ClozePlugin.getSolutions`: split the template on the
marker, and derive one accepted-answer list from each odd element. -/
def getSolutions (text : JSStr) (case_sensitive : Bool) : List (List JSStr) :=
  (oddElems (splitChar '%' text)).map (fun e => solutionOf e case_sensitive)

/-- Normalisation applied to a field value inside `check`:
`case_sensitivity ? field.value.trim() : field.value.toLowerCase().trim()`. -/
def normalize (case_sensitivity : Bool) (v : JSStr) : JSStr :=
  if case_sensitivity then jsTrim v else jsTrim (jsToLower v)

/-- Outcome of one activation of the submit handler: either the mistake
callback is invoked and the trial stays open, or the trial finishes with a
response vector. -/
inductive SubmitOutcome : Type
  | mistake : SubmitOutcome
  | finished (response : List JSStr) : SubmitOutcome
deriving DecidableEq, Repr

/-- The text colour written to an input field by the correctness check. -/
inductive Color : Type
  | red : Color
  | black : Color
deriving DecidableEq, Repr

/-- Result of one `check` invocation: the control-flow outcome plus, for
each field index, the colour written to that field during this submit
(`none` when the field's style was not touched). -/
structure CheckResult : Type where
  outcome : SubmitOutcome
  colors : List (Option Color)
deriving DecidableEq, Repr

/-- The local `answers` array built by the loop of `check`: the normalised
value of each of the fields `0 .. solutions.length - 1`, where `fields i` is
the current value of the input with id `input<i>`. -/
def answersList (solutions : List (List JSStr)) (fields : Nat → JSStr)
    (case_sensitivity : Bool) : List JSStr :=
  (List.range solutions.length).map (fun i => normalize case_sensitivity (fields i))

/-- The final value of the local flag `answers_correct` of `check`: it
starts `true` and is set to `false` when correctness checking is on and some
normalised answer is not contained in its accepted-answer list. -/
def answersCorrect (solutions : List (List JSStr)) (fields : Nat → JSStr)
    (check_answers case_sensitivity : Bool) : Bool :=
  !check_answers ||
    (List.range solutions.length).all (fun i =>
      (solutions.getD i []).contains
        ((answersList solutions fields case_sensitivity).getD i []))

/-- The final value of the local flag `answers_filled` of `check`: it starts
`true` and is set to `false` when blanks are disallowed and some normalised
answer is empty. -/
def answersFilled (solutions : List (List JSStr)) (fields : Nat → JSStr)
    (allow_blanks case_sensitivity : Bool) : Bool :=
  allow_blanks ||
    (List.range solutions.length).all (fun i =>
      (answersList solutions fields case_sensitivity).getD i [] ≠ [])

/-- The colour written to each field by the loop of `check`: when
correctness checking is on, field `i` is coloured red when its answer fails
the membership test and black when it passes; otherwise no field's style is
touched. -/
def checkColors (solutions : List (List JSStr)) (fields : Nat → JSStr)
    (check_answers case_sensitivity : Bool) : List (Option Color) :=
  (List.range solutions.length).map (fun i =>
    if check_answers then
      some (if (solutions.getD i []).contains
              ((answersList solutions fields case_sensitivity).getD i []) then Color.black
            else Color.red)
    else none)

/-- Embedding of the `check` closure of `ClozePlugin.trial`: when
`(check_answers && !answers_correct) || (!allow_blanks && !answers_filled)`
holds the mistake callback is invoked and the trial stays open, otherwise
the trial finishes with `{ response: answers }`. -/
def check (solutions : List (List JSStr)) (fields : Nat → JSStr)
    (check_answers allow_blanks case_sensitivity : Bool) : CheckResult :=
  if (check_answers && !answersCorrect solutions fields check_answers case_sensitivity) ||
      (!allow_blanks && !answersFilled solutions fields allow_blanks case_sensitivity) then
    { outcome := SubmitOutcome.mistake,
      colors := checkColors solutions fields check_answers case_sensitivity }
  else
    { outcome := SubmitOutcome.finished (answersList solutions fields case_sensitivity),
      colors := checkColors solutions fields check_answers case_sensitivity }

/-- One piece of the rendered surface: a literal text segment or a
text-entry control with its 0-based positional id. -/
inductive RenderItem : Type
  | lit (s : JSStr) : RenderItem
  | input (idx : Nat) : RenderItem
deriving DecidableEq, Repr

/-- The rendering loop of `ClozePlugin.trial` over the split elements:
elements at even positions are emitted verbatim, elements at odd positions
become input fields numbered by the running `solution_counter` `k`. -/
def renderElems : List JSStr → Nat → List RenderItem
  | [], _ => []
  | [e], _ => [RenderItem.lit e]
  | e :: _ :: rest, k => RenderItem.lit e :: RenderItem.input k :: renderElems rest (k + 1)

/-- The rendered surface of a trial with template `text` (the blank markers
replaced by input fields, literal segments kept in order). -/
def renderItems (text : JSStr) : List RenderItem :=
  renderElems (splitChar '%' text) 0

/-- Whether a rendered item is a text-entry control. -/
def isInputItem : RenderItem → Bool
  | RenderItem.lit _ => false
  | RenderItem.input _ => true

/-- Number of text-entry controls on the rendered surface. -/
def numInputs (text : JSStr) : Nat :=
  (renderItems text).countP isInputItem

/-- Model of `display_element.querySelector("#input<i>")`: the input item
with id `i`, when it exists on the rendered surface. -/
def queryInput (text : JSStr) (i : Nat) : Option RenderItem :=
  (renderItems text).find? (fun item => item == RenderItem.input i)

/-- Embedding of the final lines of `ClozePlugin.trial`:
`if (trial.autofocus) (display_element.querySelector("#input0") as HTMLElement).focus();`.
When autofocus is on and `#input0` does not exist, the member access on
`null` throws a `TypeError`, modelled as `Except.error ()`. -/
def trialSetup (text : JSStr) (autofocus : Bool) : Except Unit Unit :=
  if autofocus then
    match queryInput text 0 with
    | some _ => Except.ok ()
    | none => Except.error ()
  else Except.ok ()

/-- Embedding of `ClozePlugin.create_simulation_data`, with the host's
random services injected: `randomWords i` is the filler word the
word-generation service returns for blank `i`, and `mathRandom i` the
`Math.random()` draw used for blank `i` (a rational in `[0, 1)`).  A blank
whose accepted-answer list contains the empty string gets a random filler
word; otherwise the alternative at index `⌊r * length⌋` is picked. -/
def create_simulation_data (solutions : List (List JSStr))
    (randomWords : Nat → JSStr) (mathRandom : Nat → ℚ) : List JSStr :=
  solutions.enum.map (fun p =>
    if p.2.contains [] then randomWords p.1
    else p.2.getD (Int.toNat ⌊mathRandom p.1 * p.2.length⌋) [])

/-- The timed schedule produced by the loop of `ClozePlugin.simulate_visual`:
starting from accumulated reaction time `rt`, with `sample j` the `j`-th
draw of the latency-sampling service, schedule `n` field fills and return
their timestamps together with the timestamp of the final click. -/
def schedFrom (sample : Nat → ℚ) (rt : ℚ) (k : Nat) : Nat → List ℚ × ℚ
  | 0 => ([], rt)
  | n + 1 =>
    let rest := schedFrom sample (rt + sample k) (k + 1) n
    (rt :: rest.1, rest.2)

/-- Embedding of `ClozePlugin.simulate_visual`'s scheduling: the initial
`rt` is the first latency sample, each of the `n` responses is filled at the
current `rt` which then advances by a fresh sample, and the finish button is
clicked at the final `rt`. -/
def visualSchedule (n : Nat) (sample : Nat → ℚ) : List ℚ × ℚ :=
  schedFrom sample (sample 0) 1 n

/-- `s` is obtained from `a` by changing only the case of its characters:
under ASCII case folding this is exactly coincidence of the two
case-folded strings. -/
def CasingVariant (s a : JSStr) : Prop :=
  jsToLower s = jsToLower a

instance decCasingVariant (s a : JSStr) : Decidable (CasingVariant s a) :=
  inferInstanceAs (Decidable (jsToLower s = jsToLower a))

/-- The condition under which, according to the specification, a submit
attempt invokes the mistake callback: correctness checking is on and some
normalised answer is outside its accepted-answer list, or blanks are
disallowed and some normalised answer is empty. -/
def MistakeProp (solutions : List (List JSStr)) (fields : Nat → JSStr)
    (check_answers allow_blanks case_sensitivity : Bool) : Prop :=
  (check_answers = true ∧ ∃ i, i < solutions.length ∧
      normalize case_sensitivity (fields i) ∉ solutions.getD i []) ∨
  (allow_blanks = false ∧ ∃ i, i < solutions.length ∧
      normalize case_sensitivity (fields i) = [])

/-! ## Basic lemmas about the string model -/

theorem splitChar_ne_nil (sep : Char) (s : JSStr) : splitChar sep s ≠ [] := by
  induction s with
  | nil => simp [splitChar]
  | cons c cs ih =>
    simp only [splitChar]
    split
    · simp
    · cases h : splitChar sep cs with
      | nil => simp [consHead]
      | cons hh tt => simp [consHead]

theorem length_consHead (c : Char) (l : List JSStr) (h : l ≠ []) :
    (consHead c l).length = l.length := by
  cases l with
  | nil => exact absurd rfl h
  | cons hh tt => simp [consHead]

theorem length_splitChar (sep : Char) (s : JSStr) :
    (splitChar sep s).length = s.count sep + 1 := by
  induction s with
  | nil => simp [splitChar]
  | cons c cs ih =>
    simp only [splitChar]
    split
    · rename_i hc
      subst hc
      simp [List.count_cons, ih]
    · rename_i hc
      rw [length_consHead _ _ (splitChar_ne_nil _ _), ih, List.count_cons]
      simp [hc]

theorem splitChar_append (sep : Char) (a b : JSStr) :
    splitChar sep (a ++ sep :: b) = splitChar sep a ++ splitChar sep b := by
  induction a with
  | nil => simp [splitChar]
  | cons c cs ih =>
    simp only [List.cons_append, splitChar]
    split
    · simp [ih]
    · simp only [List.append_eq]
      rw [ih]
      cases h : splitChar sep cs with
      | nil => exact absurd h (splitChar_ne_nil _ _)
      | cons hh tt => simp [consHead]

theorem splitChar_of_not_mem (sep : Char) (s : JSStr) (h : sep ∉ s) :
    splitChar sep s = [s] := by
  induction s with
  | nil => rfl
  | cons c cs ih =>
    simp only [splitChar]
    rw [if_neg (fun hc => h (by simp [hc])),
      ih (fun hc => h (List.mem_cons_of_mem c hc))]
    rfl

theorem mem_of_mem_splitChar {sep : Char} {s x : JSStr} {c : Char}
    (hx : x ∈ splitChar sep s) (hc : c ∈ x) : c ∈ s := by
  induction s generalizing x with
  | nil =>
    simp only [splitChar, List.mem_singleton] at hx
    subst hx
    simp at hc
  | cons d ds ih =>
    simp only [splitChar] at hx
    split at hx
    · rcases List.mem_cons.mp hx with rfl | hx
      · simp at hc
      · exact List.mem_cons_of_mem d (ih hx hc)
    · cases h : splitChar sep ds with
      | nil => exact absurd h (splitChar_ne_nil _ _)
      | cons hh tt =>
        rw [h] at hx
        simp only [consHead] at hx
        rcases List.mem_cons.mp hx with rfl | hx
        · rcases List.mem_cons.mp hc with rfl | hc
          · exact List.mem_cons_self _ _
          · exact List.mem_cons_of_mem d (ih (h ▸ List.mem_cons_self hh tt) hc)
        · exact List.mem_cons_of_mem d (ih (h ▸ List.mem_cons_of_mem hh hx) hc)

/-! ## Lemmas about the odd-position elements and the rendered surface -/

theorem length_oddElems {α : Type} (l : List α) :
    (oddElems l).length = l.length / 2 := by
  induction l using oddElems.induct with
  | case1 => simp [oddElems]
  | case2 a => simp [oddElems]
  | case3 a b rest ih =>
    simp only [oddElems, List.length_cons, ih]
    omega

theorem oddElems_append_singleton {α : Type} (l : List α) (b : α)
    (h : l.length % 2 = 1) :
    oddElems (l ++ [b]) = oddElems l ++ [b] := by
  induction l using oddElems.induct with
  | case1 => simp at h
  | case2 a => rfl
  | case3 x y rest ih =>
    simp only [List.cons_append, oddElems, List.length_cons, List.append_eq] at *
    rw [ih (by omega)]

theorem countP_renderElems (l : List JSStr) (k : Nat) :
    (renderElems l k).countP isInputItem = (oddElems l).length := by
  induction l using oddElems.induct generalizing k with
  | case1 => rfl
  | case2 a => simp [renderElems, oddElems, List.countP_cons, isInputItem]
  | case3 a b rest ih =>
    simp only [renderElems, oddElems, List.countP_cons, isInputItem, List.length_cons]
    rw [ih (k + 1)]
    simp

theorem numInputs_eq_oddElems_length (text : JSStr) :
    numInputs text = (oddElems (splitChar '%' text)).length := by
  unfold numInputs renderItems
  exact countP_renderElems _ 0

theorem length_getSolutions (text : JSStr) (cs : Bool) :
    (getSolutions text cs).length = (oddElems (splitChar '%' text)).length := by
  unfold getSolutions
  exact List.length_map _ _

theorem numInputs_eq_length_getSolutions (text : JSStr) (cs : Bool) :
    numInputs text = (getSolutions text cs).length := by
  rw [numInputs_eq_oddElems_length, length_getSolutions]

/-! ## Character-level lemmas about case folding -/

theorem char_toNat_ofNat_of_valid {n : Nat} (h : n.isValidChar) :
    (Char.ofNat n).toNat = n := by
  rw [Char.ofNat, dif_pos h]
  rfl

theorem char_toLower_toLower (c : Char) : c.toLower.toLower = c.toLower := by
  by_cases h : c.toNat ≥ 65 ∧ c.toNat ≤ 90
  · have hv : (c.toNat + 32).isValidChar := Or.inl (by omega)
    simp only [Char.toLower, if_pos h, char_toNat_ofNat_of_valid hv]
    rw [if_neg (by omega)]
  · simp only [Char.toLower, if_neg h]

theorem char_toLower_of_whitespace {c : Char} (h : c.isWhitespace = true) :
    c.toLower = c := by
  simp only [Char.isWhitespace, Bool.or_eq_true, decide_eq_true_eq] at h
  rcases h with ((h | h) | h) | h <;> subst h <;> decide

theorem jsToLower_eq_self_of {s : JSStr} (h : ∀ c ∈ s, c.toLower = c) :
    jsToLower s = s := by
  unfold jsToLower
  induction s with
  | nil => rfl
  | cons c cs ih =>
    simp only [List.map_cons, h c (List.mem_cons_self c cs)]
    rw [ih (fun d hd => h d (List.mem_cons_of_mem c hd))]

theorem mem_of_mem_jsTrim {c : Char} {s : JSStr} (h : c ∈ jsTrim s) : c ∈ s := by
  unfold jsTrim at h
  have h1 := List.mem_reverse.mp h
  have h2 := (List.dropWhile_sublist (l := (s.dropWhile Char.isWhitespace).reverse)
    Char.isWhitespace).subset h1
  have h3 := List.mem_reverse.mp h2
  exact (List.dropWhile_sublist (l := s) Char.isWhitespace).subset h3

theorem all_ws_of_jsTrim_eq_nil {s : JSStr} (h : jsTrim s = []) :
    ∀ c ∈ s, c.isWhitespace = true := by
  unfold jsTrim at h
  rw [List.reverse_eq_nil_iff, List.dropWhile_eq_nil_iff] at h
  intro c hc
  rcases List.mem_append.mp
      ((List.takeWhile_append_dropWhile (p := Char.isWhitespace) (l := s)) ▸ hc) with h1 | h1
  · exact List.mem_takeWhile_imp h1
  · exact h c (List.mem_reverse.mpr h1)

theorem jsTrim_jsToLower_eq_nil {s : JSStr} (h : jsTrim s = []) :
    jsTrim (jsToLower s) = [] := by
  rw [jsToLower_eq_self_of (fun c hc => char_toLower_of_whitespace (all_ws_of_jsTrim_eq_nil h c hc))]
  exact h

theorem jsToLower_of_mem_solutionOf {a e : JSStr} (h : a ∈ solutionOf e false) :
    jsToLower a = a := by
  simp only [solutionOf, Bool.false_eq_true, if_false] at h
  refine jsToLower_eq_self_of (fun c hc => ?_)
  have h1 : c ∈ jsTrim (jsToLower e) := mem_of_mem_splitChar h hc
  have h2 : c ∈ jsToLower e := mem_of_mem_jsTrim h1
  obtain ⟨d, _, rfl⟩ := List.mem_map.mp h2
  exact char_toLower_toLower d

/-! ## Lemmas about the submit handler -/

theorem contains_eq_true_iff {l : List JSStr} {a : JSStr} :
    l.contains a = true ↔ a ∈ l := by
  simp [List.contains]

theorem length_answersList (solutions : List (List JSStr)) (fields : Nat → JSStr)
    (cs : Bool) : (answersList solutions fields cs).length = solutions.length := by
  unfold answersList
  simp

theorem answersList_getD (solutions : List (List JSStr)) (fields : Nat → JSStr)
    (cs : Bool) {i : Nat} (h : i < solutions.length) :
    (answersList solutions fields cs).getD i [] = normalize cs (fields i) := by
  unfold answersList
  rw [List.getD_eq_getElem?_getD, List.getElem?_map, List.getElem?_range h]
  rfl

theorem answersCorrect_false_iff (solutions : List (List JSStr)) (fields : Nat → JSStr)
    (cs : Bool) :
    answersCorrect solutions fields true cs = false ↔
      ∃ i, i < solutions.length ∧ normalize cs (fields i) ∉ solutions.getD i [] := by
  unfold answersCorrect
  simp only [Bool.not_true, Bool.false_or]
  rw [Bool.eq_false_iff, Ne, List.all_eq_true]
  push_neg
  constructor
  · rintro ⟨i, hi, hp⟩
    have hlt := List.mem_range.mp hi
    refine ⟨i, hlt, fun hmem => hp ?_⟩
    rw [answersList_getD solutions fields cs hlt]
    exact contains_eq_true_iff.mpr hmem
  · rintro ⟨i, hlt, hmem⟩
    refine ⟨i, List.mem_range.mpr hlt, fun hp => hmem ?_⟩
    rw [answersList_getD solutions fields cs hlt] at hp
    exact contains_eq_true_iff.mp hp

theorem answersFilled_false_iff (solutions : List (List JSStr)) (fields : Nat → JSStr)
    (cs : Bool) :
    answersFilled solutions fields false cs = false ↔
      ∃ i, i < solutions.length ∧ normalize cs (fields i) = [] := by
  unfold answersFilled
  simp only [Bool.false_or]
  rw [Bool.eq_false_iff, Ne, List.all_eq_true]
  push_neg
  constructor
  · rintro ⟨i, hi, hp⟩
    have hlt := List.mem_range.mp hi
    refine ⟨i, hlt, ?_⟩
    rw [answersList_getD solutions fields cs hlt] at hp
    simpa using hp
  · rintro ⟨i, hlt, hmem⟩
    refine ⟨i, List.mem_range.mpr hlt, ?_⟩
    rw [answersList_getD solutions fields cs hlt]
    simpa using hmem

theorem check_cond_iff (solutions : List (List JSStr)) (fields : Nat → JSStr)
    (ca ab cs : Bool) :
    ((ca && !answersCorrect solutions fields ca cs) ||
      (!ab && !answersFilled solutions fields ab cs)) = true ↔
    MistakeProp solutions fields ca ab cs := by
  unfold MistakeProp
  cases ca with
  | false =>
    cases ab with
    | false =>
      simp only [Bool.false_and, Bool.not_false, Bool.true_and, Bool.false_or,
        Bool.not_eq_true', answersFilled_false_iff]
      simp
    | true =>
      simp only [Bool.false_and, Bool.not_true, Bool.false_and, Bool.or_self]
      simp [answersFilled]
  | true =>
    cases ab with
    | false =>
      simp only [Bool.true_and, Bool.not_false, Bool.true_and, Bool.or_eq_true,
        Bool.not_eq_true', answersCorrect_false_iff, answersFilled_false_iff]
      simp
    | true =>
      simp only [Bool.true_and, Bool.not_true, Bool.false_and, Bool.or_false,
        Bool.not_eq_true', answersCorrect_false_iff]
      simp

theorem check_outcome_cases (solutions : List (List JSStr)) (fields : Nat → JSStr)
    (ca ab cs : Bool) :
    ((check solutions fields ca ab cs).outcome = SubmitOutcome.mistake ↔
      MistakeProp solutions fields ca ab cs) ∧
    ((check solutions fields ca ab cs).outcome = SubmitOutcome.mistake ∨
      (check solutions fields ca ab cs).outcome =
        SubmitOutcome.finished (answersList solutions fields cs)) := by
  unfold check
  split
  · rename_i hcond
    simp only [true_or, and_true]
    simpa using (check_cond_iff solutions fields ca ab cs).mp hcond
  · rename_i hcond
    rw [Bool.not_eq_true] at hcond
    constructor
    · simp only []
      constructor
      · intro h
        exact absurd h (by simp)
      · intro h
        exact absurd ((check_cond_iff solutions fields ca ab cs).mpr h)
          (by simp [hcond])
    · right
      rfl

theorem check_colors_eq (solutions : List (List JSStr)) (fields : Nat → JSStr)
    (ca ab cs : Bool) :
    (check solutions fields ca ab cs).colors = checkColors solutions fields ca cs := by
  unfold check
  split <;> rfl

theorem checkColors_getD (solutions : List (List JSStr)) (fields : Nat → JSStr)
    (ca cs : Bool) {i : Nat} (h : i < solutions.length) :
    (checkColors solutions fields ca cs).getD i none =
      if ca then
        some (if (solutions.getD i []).contains (normalize cs (fields i)) then Color.black
              else Color.red)
      else none := by
  unfold checkColors
  rw [List.getD_eq_getElem?_getD, List.getElem?_map, List.getElem?_range h]
  simp only [Option.map_some', Option.getD_some]
  rw [answersList_getD solutions fields cs h]

/-! ## Lemmas about the simulation helpers -/

theorem create_simulation_data_getElem (solutions : List (List JSStr))
    (randomWords : Nat → JSStr) (mathRandom : Nat → ℚ) {i : Nat} {wl : List JSStr}
    (h : solutions[i]? = some wl) :
    (create_simulation_data solutions randomWords mathRandom)[i]? =
      some (if wl.contains [] then randomWords i
            else wl.getD (Int.toNat ⌊mathRandom i * wl.length⌋) []) := by
  unfold create_simulation_data
  rw [List.getElem?_map, List.getElem?_enum, h]
  rfl

theorem length_create_simulation_data (solutions : List (List JSStr))
    (randomWords : Nat → JSStr) (mathRandom : Nat → ℚ) :
    (create_simulation_data solutions randomWords mathRandom).length = solutions.length := by
  unfold create_simulation_data
  simp

theorem floor_mul_lt_of_lt_one {r : ℚ} {m : Nat} (_h0 : 0 ≤ r) (h1 : r < 1)
    (hm : 0 < m) : Int.toNat ⌊r * (m : ℚ)⌋ < m := by
  have hmul : r * (m : ℚ) < (m : ℚ) := by
    have hmq : (0 : ℚ) < (m : ℚ) := by exact_mod_cast hm
    calc r * (m : ℚ) < 1 * (m : ℚ) := by
          exact mul_lt_mul_of_pos_right h1 hmq
      _ = (m : ℚ) := one_mul _
  have hfl : ⌊r * (m : ℚ)⌋ < (m : ℤ) := by
    rw [Int.floor_lt]
    exact_mod_cast hmul
  omega

theorem floor_mul_hits (m j : Nat) (hj : j < m) :
    ∃ r : ℚ, 0 ≤ r ∧ r < 1 ∧ Int.toNat ⌊r * (m : ℚ)⌋ = j := by
  have hm : (0 : ℚ) < (m : ℚ) := by exact_mod_cast Nat.lt_of_le_of_lt (Nat.zero_le j) hj
  refine ⟨(j : ℚ) / (m : ℚ), ?_, ?_, ?_⟩
  · positivity
  · rw [div_lt_one hm]
    exact_mod_cast hj
  · rw [div_mul_cancel₀ _ (ne_of_gt hm)]
    rw [Int.floor_natCast]
    exact Int.toNat_natCast j

theorem schedFrom_spec (sample : Nat → ℚ) (hpos : ∀ i, 0 < sample i) :
    ∀ (n : Nat) (rt : ℚ) (k : Nat),
      List.Chain' (· < ·) (schedFrom sample rt k n).1 ∧
      (∀ t ∈ (schedFrom sample rt k n).1, rt ≤ t ∧ t < (schedFrom sample rt k n).2) ∧
      rt ≤ (schedFrom sample rt k n).2 := by
  intro n
  induction n with
  | zero =>
    intro rt k
    refine ⟨List.chain'_nil, ?_, le_refl rt⟩
    intro t ht
    simp [schedFrom] at ht
  | succ m ih =>
    intro rt k
    obtain ⟨ihc, ihm, ihle⟩ := ih (rt + sample k) (k + 1)
    have hstep : rt < rt + sample k := by
      have := hpos k
      linarith
    refine ⟨?_, ?_, ?_⟩
    · rw [show (schedFrom sample rt k (m + 1)).1 =
          rt :: (schedFrom sample (rt + sample k) (k + 1) m).1 from rfl]
      rw [List.chain'_cons']
      refine ⟨?_, ihc⟩
      intro y hy
      have hmem := List.mem_of_mem_head? hy
      have := (ihm y hmem).1
      linarith
    · intro t ht
      rw [show (schedFrom sample rt k (m + 1)).1 =
          rt :: (schedFrom sample (rt + sample k) (k + 1) m).1 from rfl] at ht
      rw [show (schedFrom sample rt k (m + 1)).2 =
          (schedFrom sample (rt + sample k) (k + 1) m).2 from rfl]
      rcases List.mem_cons.mp ht with rfl | ht
      · exact ⟨le_refl t, lt_of_lt_of_le hstep ihle⟩
      · obtain ⟨h1, h2⟩ := ihm t ht
        exact ⟨le_trans (le_of_lt hstep) h1, h2⟩
    · rw [show (schedFrom sample rt k (m + 1)).2 =
          (schedFrom sample (rt + sample k) (k + 1) m).2 from rfl]
      exact le_trans (le_of_lt hstep) ihle

theorem ne_nil_of_mem_getSolutions {text : JSStr} {cs : Bool} {wl : List JSStr}
    (h : wl ∈ getSolutions text cs) : wl ≠ [] := by
  unfold getSolutions at h
  obtain ⟨e, _, rfl⟩ := List.mem_map.mp h
  unfold solutionOf
  split <;> exact splitChar_ne_nil _ _

/-! ## The claims -/

/-- C1: a single activation of the submit handler invokes the mistake
callback (leaving the trial open) exactly when correctness checking is on
and some normalised answer is outside its accepted-answer list, or blanks
are disallowed and some normalised answer is empty; in every other case the
trial finishes, delivering the response vector. -/
theorem c1_submit_gates (text : JSStr) (fields : Nat → JSStr) (ca ab cs : Bool) :
    ((check (getSolutions text cs) fields ca ab cs).outcome = SubmitOutcome.mistake ↔
      MistakeProp (getSolutions text cs) fields ca ab cs) ∧
    (¬ MistakeProp (getSolutions text cs) fields ca ab cs →
      (check (getSolutions text cs) fields ca ab cs).outcome =
        SubmitOutcome.finished (answersList (getSolutions text cs) fields cs)) := by
  obtain ⟨h1, h2⟩ := check_outcome_cases (getSolutions text cs) fields ca ab cs
  refine ⟨h1, fun hm => ?_⟩
  rcases h2 with h | h
  · exact absurd (h1.mp h) hm
  · exact h

theorem c1_submit_gates_witness :
    ¬ MistakeProp (getSolutions "a%b%c".data true) (fun _ => "b".data) false true true ∧
    (check (getSolutions "a%b%c".data true) (fun _ => "b".data) false true true).outcome =
      SubmitOutcome.finished
        (answersList (getSolutions "a%b%c".data true) (fun _ => "b".data) true) := by
  have hm : ¬ MistakeProp (getSolutions "a%b%c".data true) (fun _ => "b".data) false true true := by
    rintro (⟨h, _⟩ | ⟨h, _⟩) <;> simp at h
  exact ⟨hm, (c1_submit_gates "a%b%c".data (fun _ => "b".data) false true true).2 hm⟩

/-- C2: the claim fails on the code.  For a template with zero blank
markers the rendered surface indeed has no text-entry controls and every
submit finishes, but with initial focus enabled (the default) the trial
setup dereferences the missing `#input0` element and throws instead of
having no effect. -/
theorem c2_autofocus_crash :
    numInputs "ab".data = 0 ∧
    (∀ fields ca ab cs,
      (check (getSolutions "ab".data cs) fields ca ab cs).outcome =
        SubmitOutcome.finished []) ∧
    trialSetup "ab".data true = Except.error () ∧
    trialSetup "ab".data false = Except.ok () := by
  refine ⟨rfl, ?_, rfl, rfl⟩
  intro fields ca ab cs
  have hs : getSolutions "ab".data cs = [] := rfl
  rw [hs]
  unfold check
  have hc : answersCorrect [] fields ca cs = true := by
    unfold answersCorrect
    simp
  have hf : answersFilled [] fields ab cs = true := by
    unfold answersFilled
    simp
  rw [hc, hf]
  simp [answersList]

/-- C4: for a template with an even number k of marker characters, parsing
yields exactly k/2 accepted-answer lists (and the surface carries k/2
text-entry controls), each list non-empty. -/
theorem c4_even_markers (text : JSStr) (cs : Bool)
    (h : text.count '%' % 2 = 0) :
    (getSolutions text cs).length = text.count '%' / 2 ∧
    numInputs text = text.count '%' / 2 ∧
    ∀ sol ∈ getSolutions text cs, sol ≠ [] := by
  have hlen : (oddElems (splitChar '%' text)).length = text.count '%' / 2 := by
    rw [length_oddElems, length_splitChar]
    omega
  exact ⟨by rw [length_getSolutions, hlen],
    by rw [numInputs_eq_oddElems_length, hlen],
    fun sol hs => ne_nil_of_mem_getSolutions hs⟩

theorem c4_even_markers_witness :
    ("a%b%c".data.count '%') % 2 = 0 ∧
    (getSolutions "a%b%c".data true).length = ("a%b%c".data.count '%') / 2 ∧
    numInputs "a%b%c".data = ("a%b%c".data.count '%') / 2 ∧
    ∀ sol ∈ getSolutions "a%b%c".data true, sol ≠ [] :=
  ⟨by decide, c4_even_markers "a%b%c".data true (by decide)⟩

/-- C6: a blank whose marker-enclosed content trims to the empty string
yields, for either value of the case-sensitivity flag, exactly one accepted
alternative: the empty string. -/
theorem c6_empty_blank (text : JSStr) (cs : Bool) (i : Nat) (e : JSStr)
    (he : (oddElems (splitChar '%' text))[i]? = some e)
    (h : jsTrim e = []) :
    (getSolutions text cs)[i]? = some [[]] := by
  unfold getSolutions
  rw [List.getElem?_map, he]
  simp only [Option.map_some']
  congr 1
  unfold solutionOf
  cases cs with
  | true =>
    rw [if_pos rfl, h]
    rfl
  | false =>
    rw [if_neg (by simp), jsTrim_jsToLower_eq_nil h]
    rfl

theorem c6_empty_blank_witness :
    (oddElems (splitChar '%' "a% %b".data))[0]? = some [' '] ∧
    jsTrim [' '] = [] ∧
    (getSolutions "a% %b".data false)[0]? = some [[]] :=
  ⟨by decide, by decide, c6_empty_blank "a% %b".data false 0 [' '] (by decide) (by decide)⟩

/-- C9: a template with an odd number n of marker characters treats the
text after the last (unmatched) marker as one more blank: (n+1)/2 inputs
are rendered, (n+1)/2 accepted-answer lists are parsed, and the last list
is derived from that trailing text. -/
theorem c9_odd_markers (text : JSStr) (cs : Bool) (a b : JSStr)
    (hsplit : text = a ++ '%' :: b) (hb : '%' ∉ b)
    (hodd : text.count '%' % 2 = 1) :
    numInputs text = (text.count '%' + 1) / 2 ∧
    (getSolutions text cs).length = (text.count '%' + 1) / 2 ∧
    (getSolutions text cs).getLast? = some (solutionOf b cs) := by
  subst hsplit
  have hcb : b.count '%' = 0 := List.count_eq_zero.mpr hb
  have hsp : splitChar '%' (a ++ '%' :: b) = splitChar '%' a ++ [b] := by
    rw [splitChar_append, splitChar_of_not_mem '%' b hb]
  have hcount : (a ++ '%' :: b).count '%' = a.count '%' + 1 := by
    rw [List.count_append, List.count_cons]
    simp [hcb]
  have hodd' : (splitChar '%' a).length % 2 = 1 := by
    rw [length_splitChar]
    rw [hcount] at hodd
    omega
  have hoe : oddElems (splitChar '%' (a ++ '%' :: b)) =
      oddElems (splitChar '%' a) ++ [b] := by
    rw [hsp, oddElems_append_singleton _ _ hodd']
  have heven : a.count '%' % 2 = 0 := by
    rw [hcount] at hodd
    omega
  refine ⟨?_, ?_, ?_⟩
  · simp only [numInputs_eq_oddElems_length, hoe, List.length_append, length_oddElems,
      length_splitChar, hcount, List.length_singleton]
    omega
  · simp only [length_getSolutions, hoe, List.length_append, length_oddElems,
      length_splitChar, hcount, List.length_singleton]
    omega
  · unfold getSolutions
    rw [hoe, List.map_append]
    exact List.getLast?_concat _

theorem c9_odd_markers_witness :
    "x%y".data = "x".data ++ '%' :: "y".data ∧
    '%' ∉ "y".data ∧
    ("x%y".data.count '%') % 2 = 1 ∧
    numInputs "x%y".data = ("x%y".data.count '%' + 1) / 2 ∧
    (getSolutions "x%y".data true).length = ("x%y".data.count '%' + 1) / 2 ∧
    (getSolutions "x%y".data true).getLast? = some (solutionOf "y".data true) :=
  ⟨by decide, by decide, by decide,
    c9_odd_markers "x%y".data true "x".data "y".data (by decide) (by decide) (by decide)⟩

/-- C10: the submit handler writes a field colour (red for a failing field,
black for a passing one) only when correctness checking is enabled; with it
disabled no field's visual state is touched, and a completeness-gate
failure then invokes the mistake callback without flagging any field. -/
theorem c10_visual_flags (text : JSStr) (fields : Nat → JSStr) (ab cs : Bool) :
    (∀ w ∈ (check (getSolutions text cs) fields false ab cs).colors, w = none) ∧
    (∀ i, i < (getSolutions text cs).length →
      (check (getSolutions text cs) fields true ab cs).colors.getD i none =
        some (if ((getSolutions text cs).getD i []).contains (normalize cs (fields i))
              then Color.black else Color.red)) ∧
    (ab = false →
      (∃ i, i < (getSolutions text cs).length ∧ normalize cs (fields i) = []) →
      (check (getSolutions text cs) fields false ab cs).outcome = SubmitOutcome.mistake) := by
  refine ⟨?_, ?_, ?_⟩
  · intro w hw
    rw [check_colors_eq] at hw
    unfold checkColors at hw
    obtain ⟨i, _, rfl⟩ := List.mem_map.mp hw
    rfl
  · intro i hi
    rw [check_colors_eq, checkColors_getD _ _ _ _ hi]
    rfl
  · rintro rfl hex
    exact ((check_outcome_cases (getSolutions text cs) fields false false cs).1).mpr
      (Or.inr ⟨rfl, hex⟩)

/-- C3 is false as stated: for the template "%a/%" the accepted-answer list
is ["a", ""], which is not exactly [""], yet headless simulation consults
the word-generation service for that blank — the response is the service's
word, not a uniformly selected element of the list. -/
theorem c3_counterexample :
    getSolutions "%a/%".data true = [[['a'], []]] ∧
    ([[['a'], []]] : List (List JSStr)) ≠ [[[]]] ∧
    create_simulation_data (getSolutions "%a/%".data true)
      (fun _ => "zebra".data) (fun _ => 0) = ["zebra".data] ∧
    "zebra".data ∉ [['a'], ([] : JSStr)] := by
  refine ⟨rfl, by decide, rfl, by decide⟩

/-- C3 amended: in headless simulation a blank draws a random filler word
from the word-generation service exactly when its accepted-answer list
contains the empty string; otherwise the alternative at index ⌊r·len⌋ is
selected — an in-range index that reaches every alternative as the random
draw r ranges over [0, 1). -/
theorem c3_simulation_draw (text : JSStr) (cs : Bool) (randomWords : Nat → JSStr)
    (mathRandom : Nat → ℚ) (i : Nat) (wl : List JSStr)
    (hw : (getSolutions text cs)[i]? = some wl)
    (h0 : 0 ≤ mathRandom i) (h1 : mathRandom i < 1) :
    (wl.contains [] = true →
      (create_simulation_data (getSolutions text cs) randomWords mathRandom)[i]? =
        some (randomWords i)) ∧
    (wl.contains [] = false →
      Int.toNat ⌊mathRandom i * wl.length⌋ < wl.length ∧
      (create_simulation_data (getSolutions text cs) randomWords mathRandom)[i]? =
        some (wl.getD (Int.toNat ⌊mathRandom i * wl.length⌋) []) ∧
      wl.getD (Int.toNat ⌊mathRandom i * wl.length⌋) [] ∈ wl) ∧
    (∀ j, j < wl.length → ∃ r : ℚ, 0 ≤ r ∧ r < 1 ∧ Int.toNat ⌊r * wl.length⌋ = j) := by
  have hmain := create_simulation_data_getElem (getSolutions text cs) randomWords mathRandom hw
  refine ⟨fun hc => ?_, fun hc => ?_, fun j hj => floor_mul_hits wl.length j hj⟩
  · rw [hmain, hc]
    rfl
  · have hlen : 0 < wl.length :=
      List.length_pos.mpr (ne_nil_of_mem_getSolutions (List.getElem?_mem hw))
    have hidx := floor_mul_lt_of_lt_one h0 h1 hlen
    refine ⟨hidx, ?_, ?_⟩
    · rw [hmain, hc]
      rfl
    · rw [List.getD_eq_getElem?_getD, List.getElem?_eq_getElem hidx]
      exact List.getElem_mem hidx

theorem c3_simulation_draw_witness :
    (getSolutions "%1/2%".data true)[0]? = some [['1'], ['2']] ∧
    (0 : ℚ) ≤ 1 / 2 ∧ (1 : ℚ) / 2 < 1 ∧
    (([['1'], ['2']] : List JSStr).contains [] = false →
      Int.toNat ⌊(1 : ℚ) / 2 * ([['1'], ['2']] : List JSStr).length⌋ <
        ([['1'], ['2']] : List JSStr).length ∧
      (create_simulation_data (getSolutions "%1/2%".data true)
          (fun _ => "w".data) (fun _ => 1 / 2))[0]? =
        some (([['1'], ['2']] : List JSStr).getD
          (Int.toNat ⌊(1 : ℚ) / 2 * ([['1'], ['2']] : List JSStr).length⌋) []) ∧
      ([['1'], ['2']] : List JSStr).getD
        (Int.toNat ⌊(1 : ℚ) / 2 * ([['1'], ['2']] : List JSStr).length⌋) [] ∈
          ([['1'], ['2']] : List JSStr)) := by
  refine ⟨by decide, by norm_num, by norm_num, ?_⟩
  exact (c3_simulation_draw "%1/2%".data true (fun _ => "w".data) (fun _ => 1 / 2) 0
    [['1'], ['2']] (by decide) (by norm_num) (by norm_num)).2.1

/-- C5 is false as stated: with case sensitivity disabled the template
"%a /b%" yields the accepted alternative "a " (with a trailing space); the
submitted value "a " is a casing variant of that alternative, yet the
correctness gate fails for that blank, because the submitted value is
trimmed while the stored alternative keeps its padding. -/
theorem c5_counterexample :
    ['a', ' '] ∈ (getSolutions "%a /b%".data false).getD 0 [] ∧
    CasingVariant ['a', ' '] ['a', ' '] ∧
    ((getSolutions "%a /b%".data false).getD 0 []).contains
      (normalize false ['a', ' ']) = false ∧
    (check (getSolutions "%a /b%".data false) (fun _ => ['a', ' ']) true true false).outcome =
      SubmitOutcome.mistake := by
  refine ⟨by decide, rfl, by decide, by decide⟩

/-- C5 amended: with case sensitivity disabled, entering any casing variant
of an accepted alternative passes the correctness gate for that blank,
provided the alternative carries no surrounding whitespace (is unchanged by
trimming). -/
theorem c5_case_insensitive_match (text : JSStr) (fields : Nat → JSStr) (i : Nat)
    (a : JSStr)
    (ha : a ∈ (getSolutions text false).getD i [])
    (htrim : jsTrim a = a)
    (hcase : CasingVariant (fields i) a) :
    ((getSolutions text false).getD i []).contains (normalize false (fields i)) = true := by
  have hmem : (getSolutions text false).getD i [] ∈ getSolutions text false ∨
      (getSolutions text false).getD i [] = [] := by
    rw [List.getD_eq_getElem?_getD]
    cases hx : (getSolutions text false)[i]? with
    | none => exact Or.inr rfl
    | some v => exact Or.inl (List.getElem?_mem hx)
  have hsol : ∃ e, (getSolutions text false).getD i [] = solutionOf e false := by
    rcases hmem with hm | hm
    · unfold getSolutions at hm
      obtain ⟨e, _, he⟩ := List.mem_map.mp hm
      exact ⟨e, he.symm⟩
    · rw [hm] at ha
      simp at ha
  obtain ⟨e, he⟩ := hsol
  have hlower : jsToLower a = a := by
    rw [he] at ha
    exact jsToLower_of_mem_solutionOf ha
  have : normalize false (fields i) = a := by
    unfold normalize
    rw [if_neg (by simp)]
    unfold CasingVariant at hcase
    rw [hcase, hlower, htrim]
  rw [this]
  exact contains_eq_true_iff.mpr ha

theorem c5_case_insensitive_match_witness :
    "ab".data ∈ (getSolutions "%ab%".data false).getD 0 [] ∧
    jsTrim "ab".data = "ab".data ∧
    CasingVariant "AB".data "ab".data ∧
    ((getSolutions "%ab%".data false).getD 0 []).contains
      (normalize false "AB".data) = true :=
  ⟨by decide, by decide, by decide,
    c5_case_insensitive_match "%ab%".data (fun _ => "AB".data) 0 "ab".data
      (by decide) (by decide) (by decide)⟩

/-- C7: whenever the trial finishes (a passing submit or headless
simulation), the delivered `response` list has one entry per parsed blank —
for a submit, entry i is the normalised value of field i — and the number
of parsed blanks equals the number of rendered inputs. -/
theorem c7_response_shape (text : JSStr) (fields : Nat → JSStr) (ca ab cs : Bool)
    (randomWords : Nat → JSStr) (mathRandom : Nat → ℚ) :
    (∀ resp, (check (getSolutions text cs) fields ca ab cs).outcome =
        SubmitOutcome.finished resp →
      resp.length = (getSolutions text cs).length ∧
      ∀ i, i < resp.length → resp.getD i [] = normalize cs (fields i)) ∧
    (create_simulation_data (getSolutions text cs) randomWords mathRandom).length =
      (getSolutions text cs).length ∧
    (getSolutions text cs).length = numInputs text := by
  refine ⟨?_, length_create_simulation_data _ _ _,
    (numInputs_eq_length_getSolutions text cs).symm⟩
  intro resp hr
  unfold check at hr
  split at hr
  · exact absurd hr (by simp)
  · have hresp : resp = answersList (getSolutions text cs) fields cs := by
      have := SubmitOutcome.finished.inj hr
      exact this.symm
    subst hresp
    refine ⟨length_answersList _ _ _, fun i hi => ?_⟩
    rw [length_answersList] at hi
    exact answersList_getD _ _ _ hi

theorem c7_response_shape_witness :
    (check (getSolutions "a%b%c".data true) (fun _ => "b".data) false true true).outcome =
      SubmitOutcome.finished
        (answersList (getSolutions "a%b%c".data true) (fun _ => "b".data) true) ∧
    (answersList (getSolutions "a%b%c".data true) (fun _ => "b".data) true).length =
      (getSolutions "a%b%c".data true).length ∧
    ∀ i, i < (answersList (getSolutions "a%b%c".data true) (fun _ => "b".data) true).length →
      (answersList (getSolutions "a%b%c".data true) (fun _ => "b".data) true).getD i [] =
        normalize true "b".data := by
  have h := (c7_response_shape "a%b%c".data (fun _ => "b".data) false true true
    (fun _ => "w".data) (fun _ => 0)).1
    (answersList (getSolutions "a%b%c".data true) (fun _ => "b".data) true) (by decide)
  exact ⟨by decide, h.1, h.2⟩

/-- C8: in visual simulation the field-fill events are scheduled at
strictly increasing positive timestamps and the click on the finish button
is scheduled strictly after every fill, so the submit is the last scheduled
event of the trial. -/
theorem c8_visual_timing (n : Nat) (sample : Nat → ℚ)
    (hpos : ∀ i, 0 < sample i) :
    List.Chain' (· < ·) (visualSchedule n sample).1 ∧
    (∀ t ∈ (visualSchedule n sample).1, 0 < t ∧ t < (visualSchedule n sample).2) := by
  unfold visualSchedule
  obtain ⟨hc, hm, _⟩ := schedFrom_spec sample hpos n (sample 0) 1
  refine ⟨hc, fun t ht => ?_⟩
  obtain ⟨h1, h2⟩ := hm t ht
  exact ⟨lt_of_lt_of_le (hpos 0) h1, h2⟩

theorem c8_visual_timing_witness :
    (∀ i : Nat, (0 : ℚ) < (fun _ : Nat => (1 : ℚ)) i) ∧
    List.Chain' (· < ·) (visualSchedule 2 (fun _ : Nat => (1 : ℚ))).1 ∧
    (∀ t ∈ (visualSchedule 2 (fun _ : Nat => (1 : ℚ))).1,
      0 < t ∧ t < (visualSchedule 2 (fun _ : Nat => (1 : ℚ))).2) := by
  have h := c8_visual_timing 2 (fun _ : Nat => (1 : ℚ)) (fun _ => one_pos)
  exact ⟨fun _ => one_pos, h.1, h.2⟩

theorem c10_visual_flags_witness :
    (∀ w ∈ (check (getSolutions "a%b%c".data true) (fun _ => []) false false true).colors,
      w = none) ∧
    (check (getSolutions "a%b%c".data true) (fun _ => []) false false true).outcome =
      SubmitOutcome.mistake := by
  have h := c10_visual_flags "a%b%c".data (fun _ => []) false true
  exact ⟨h.1, h.2.2 rfl ⟨0, by decide, by decide⟩⟩

end Cloze
